import Mathlib

/-!
Shallow embedding of the numerical core of the repository:
`invisible_cities/core/peak_functions.py` (peak finding over zero-suppressed
waveforms) and `invisible_cities/cities/beersheba.py` (deconvolution cut,
energy redistribution and track sorting).

Machine floats are modelled by `ℚ` (the algorithms are pure field
arithmetic and comparisons); fallible code (asserts, out-of-bounds array
access, division by zero in `//`) is modelled with `Option`.
-/

namespace IC

/-! ### peak_functions.py -/

/-- `time_from_index`: times (ns) for the sample indices, `step = 25` ns,
`tzs[i] = step * float(indx[i])`. -/
def time_from_index (indx : List ℤ) : List ℚ :=
  indx.map (fun i => 25 * (i : ℚ))

/-- One chunking pass of `rebin_waveform`: take chunks of `stride` samples
(the final chunk takes the `len % stride` remaining samples when that
remainder is nonzero), summing energy and averaging time per chunk.
`fuel` bounds the recursion; it is instantiated with `t.length`, which
suffices because each step consumes at least one sample when
`0 < stride`. -/
def rebinAux (stride : ℕ) : ℕ → List ℚ → List ℚ → List ℚ × List ℚ
  | 0, _, _ => ([], [])
  | Nat.succ fuel, t, e =>
    match t with
    | [] => ([], [])
    | _ :: _ =>
      let k := min stride t.length
      let rest := rebinAux stride fuel (t.drop k) (e.drop k)
      (((t.take k).sum / (k : ℚ)) :: rest.1, (e.take k).sum :: rest.2)

/-- `rebin_waveform(t, e, stride)`: `none` models the `assert len(t) == len(e)`
failure and the `ZeroDivisionError` of `len(t) // stride` at `stride = 0`. -/
def rebin_waveform (t e : List ℚ) (stride : ℕ) : Option (List ℚ × List ℚ) :=
  if t.length = e.length ∧ 0 < stride then
    some (rebinAux stride t.length t e)
  else none

/-- The grouping loop of `find_S12` (the `for i in range(1, len(wfzs))` loop).
`prev` is `index[i-1]` — the index of the immediately preceding *input*
sample, whether or not that sample was kept; `cur` is the group currently
being filled (`S12[j]`), `done` the completed groups `S12[0..j-1]`.
Each remaining sample is a triple `(T[i], P[i], index[i])`.
  * `T[i] > tmax` breaks the scan;
  * `T[i] < tmin` skips the sample (without ending the current group);
  * `index[i] - stride > index[i-1]` starts a new group;
  * otherwise the sample `[T[i], P[i]]` is appended to the current group. -/
def groupGo (tmin tmax : ℚ) (stride : ℤ) :
    ℤ → List (ℚ × ℚ × ℤ) → List (List (ℚ × ℚ)) → List (ℚ × ℚ) →
    List (List (ℚ × ℚ))
  | _, [], done, cur => done ++ [cur]
  | prev, (t, p, ix) :: rest, done, cur =>
    if tmax < t then done ++ [cur]
    else if t < tmin then groupGo tmin tmax stride ix rest done cur
    else if prev < ix - stride then
      groupGo tmin tmax stride ix rest (done ++ [cur]) [(t, p)]
    else
      groupGo tmin tmax stride ix rest done (cur ++ [(t, p)])

/-- The candidate grouping built by `find_S12` before the length filter:
the dictionary `S12` (keys `0..j` in insertion order) as a list of groups of
`[T[i], P[i]]` records.  The function first asserts
`len(wfzs) == len(index)` (`none` on failure), then unconditionally executes
`S12[0].append([T[0], P[0]])`: the element reads `T[0]`, `P[0]` (and the
loop's `index[0]`) are fallible array accesses, modelled as `head?`
lookups — on empty input they fail with an `IndexError`, hence `none`. -/
def find_S12_groups (wfzs : List ℚ) (index : List ℤ) (tmin tmax : ℚ)
    (stride : ℤ) : Option (List (List (ℚ × ℚ))) :=
  if wfzs.length = index.length then
    match (time_from_index index).head?, wfzs.head?, index.head? with
    | some t0, some p0, some i0 =>
      let samples := (wfzs.tail.zip index.tail).map
        (fun s => (25 * (s.2 : ℚ), s.1, s.2))
      some (groupGo tmin tmax stride i0 samples [] [(t0, p0)])
    | _, _, _ => none
  else none

/-- `find_S12(wfzs, index, tmin, tmax, lmin, lmax, stride, rebin, rebin_stride)`:
group the zero-suppressed samples, keep only groups whose sample count `ls`
satisfies `lmin <= ls < lmax`, re-index the survivors consecutively from zero
(list position = new id), and rebin each if requested. -/
def find_S12 (wfzs : List ℚ) (index : List ℤ) (tmin tmax : ℚ)
    (lmin lmax : ℕ) (stride : ℤ) (rebin : Bool) (rebin_stride : ℕ) :
    Option (List (List ℚ × List ℚ)) :=
  match find_S12_groups wfzs index tmin tmax stride with
  | none => none
  | some groups =>
    let kept := groups.filter (fun g => decide (lmin ≤ g.length ∧ g.length < lmax))
    if rebin then
      kept.mapM (fun g => rebin_waveform (g.map Prod.fst) (g.map Prod.snd) rebin_stride)
    else
      some (kept.map (fun g => (g.map Prod.fst, g.map Prod.snd)))

/-! ### beersheba.py -/

/-- `CutType` enum: `abs` (cut on absolute value) or `rel` (cut on value
relative to the image maximum). -/
inductive CutType
  | abs
  | rel
deriving DecidableEq

/-- `DeconvolutionMode` enum: `joint` (one-step) or `separate` (two-step)
deconvolution. -/
inductive DeconvolutionMode
  | joint
  | separate
deriving DecidableEq

/-- `HitEnergy` enum (from `evm.event_model`): the column of the sensor table
used for energy assignment, `E` (uncorrected) or `Ec` (corrected). -/
inductive HitEnergy
  | E
  | Ec
deriving DecidableEq

/-- A row of the sensor-response (cdst) table, restricted to the two energy
columns that `HitEnergy` can select. -/
structure CdstRow where
  E  : ℚ
  Ec : ℚ
deriving DecidableEq

/-- `cdst.loc[:, energy_type.value]`: the column of the cdst selected by the
configured energy type. -/
def HitEnergy.col : HitEnergy → CdstRow → ℚ
  | .E  => CdstRow.E
  | .Ec => CdstRow.Ec

/-- `distribute_energy(df, cdst, energy_type)`:
`df.E = df.E / df.E.sum() * cdst.loc[:, energy_type.value].sum()`
(elementwise over the deconvolved hits of one peak). -/
def distribute_energy (dfE : List ℚ) (cdst : List CdstRow)
    (energy_type : HitEnergy) : List ℚ :=
  dfE.map (fun e => e / dfE.sum * (cdst.map energy_type.col).sum)

/-- numpy boolean-mask selection `a[sel]`. -/
def np_select {α : Type} (mask : List Bool) (l : List α) : List α :=
  (l.zip mask).filterMap (fun s => if s.2 then some s.1 else none)

/-- The columns of the dataframe built by `create_deconvolution_df` that
depend on the energy cut (`E = deconv_e[sel_deconv]`,
`X = pos[0][sel_deconv]`, `Y = pos[1][sel_deconv]`); the `event`, `npeak`
and (2-D) `Z` columns are constants of the slice. -/
structure DeconvDF where
  E : List ℚ
  X : List ℚ
  Y : List ℚ
deriving DecidableEq

/-- `create_deconvolution_df(hits, deconv_e, pos, cut_type, e_cut, n_dim)`,
keeping its cut logic: `sel_deconv = deconv_e > e_cut` in `abs` mode and
`sel_deconv = deconv_e / deconv_e.max() > e_cut` in `rel` mode.  `none`
models the failure of `deconv_e.max()` on an empty image in `rel` mode. -/
def create_deconvolution_df (deconv_e posX posY : List ℚ)
    (cut_type : CutType) (e_cut : ℚ) : Option DeconvDF :=
  match cut_type with
  | .abs =>
    let sel := deconv_e.map (fun v => decide (e_cut < v))
    some ⟨np_select sel deconv_e, np_select sel posX, np_select sel posY⟩
  | .rel =>
    match deconv_e.max? with
    | none => none
    | some m =>
      let sel := deconv_e.map (fun v => decide (e_cut < v / m))
      some ⟨np_select sel deconv_e, np_select sel posX, np_select sel posY⟩

/-- Modelled from the spec: `find_nearest` (imported by `beersheba.py` from
`reco.deconv_functions`, which is not under `src/`): nearest-neighbour
search of a value against the axis' grid values, ties broken by the
underlying ordering of the candidates (first match). -/
def find_nearest (grid : List ℚ) (v : ℚ) : Option ℚ :=
  grid.foldl (fun acc g =>
    match acc with
    | none => some g
    | some b => if |g - v| < |b - v| then some g else acc) none

/-- The longitudinal coordinate used by `deconvolve_hits` for the PSF lookup:
`zz = z if deconv_mode is DeconvolutionMode.joint else 0`. -/
def deconvolve_hits_zz (deconv_mode : DeconvolutionMode) (z : ℚ) : ℚ :=
  match deconv_mode with
  | .joint    => z
  | .separate => 0

/-- The z-axis part of the PSF row selection in `deconvolve_hits`:
the grid value `find_nearest(psfs.z, zz)` whose rows are kept. -/
def deconvolve_hits_psf_z (psf_zs : List ℚ) (deconv_mode : DeconvolutionMode)
    (z : ℚ) : Option ℚ :=
  find_nearest psf_zs (deconvolve_hits_zz deconv_mode z)

/-- A voxel as used by the track sorting: only its accumulated hit energy
`Ehits` matters there. -/
structure Voxel where
  Ehits : ℚ
deriving DecidableEq

/-- A track: a connected component of the voxel graph; the sorting key only
reads its node list. -/
structure Track where
  nodes : List Voxel
deriving DecidableEq

/-- `sum([vox.Ehits for vox in t.nodes()])`, the sorting key of
`create_extract_track_blob_info`. -/
def track_energy (t : Track) : ℚ := (t.nodes.map Voxel.Ehits).sum

/-- `sorted(tracks, key=lambda t: sum([vox.Ehits for vox in t.nodes()]), reverse=True)`.
Python's `sorted` is a stable sort; with `reverse=True` it orders keys
descending while keeping equal-key elements in their original (discovery)
order.  Modelled as a stable merge sort with comparison
`track_energy b ≤ track_energy a`. -/
def sort_tracks (tracks : List Track) : List Track :=
  tracks.mergeSort (fun a b => decide (track_energy b ≤ track_energy a))

/-! ### Helper lemmas -/

lemma sum_map_mul_const (l : List ℚ) (c : ℚ) :
    (l.map (fun e => e * c)).sum = l.sum * c := by
  induction l with
  | nil => simp
  | cons a l ih => simp [ih, add_mul]

lemma np_select_map {α : Type} (f : α → Bool) (l : List α) :
    np_select (l.map f) l = l.filter f := by
  induction l with
  | nil => rfl
  | cons a l ih =>
    simp only [np_select, List.map_cons, List.zip_cons_cons, List.filterMap_cons,
      List.filter_cons] at ih ⊢
    cases h : f a <;> simp [h, ih]

lemma rebinAux_sum (stride : ℕ) (hs : 0 < stride) :
    ∀ (fuel : ℕ) (t e : List ℚ), t.length ≤ fuel → t.length = e.length →
      (rebinAux stride fuel t e).2.sum = e.sum := by
  intro fuel
  induction fuel with
  | zero =>
    intro t e hle hlen
    have ht : t = [] := List.length_eq_zero.mp (Nat.le_zero.mp hle)
    have he : e = [] := List.length_eq_zero.mp (by omega)
    subst ht he; rfl
  | succ fuel ih =>
    intro t e hle hlen
    match t with
    | [] =>
      have he : e = [] := List.length_eq_zero.mp (by simpa using hlen.symm)
      subst he; rfl
    | a :: t' =>
      set k := min stride (a :: t').length with hk
      have hk1 : 1 ≤ k := le_min hs (by simp)
      have hrec :
          (rebinAux stride fuel ((a :: t').drop k) (e.drop k)).2.sum
            = (e.drop k).sum := by
        apply ih
        · have := List.length_cons a t'
          simp only [List.length_drop]
          omega
        · simp only [List.length_drop]
          omega
      show (e.take k).sum + (rebinAux stride fuel ((a :: t').drop k) (e.drop k)).2.sum
          = e.sum
      rw [hrec]
      have h2 := congrArg List.sum (List.take_append_drop k e)
      rw [List.sum_append] at h2
      exact h2

/-- The first element of the first group survives the whole grouping loop:
`groupGo` only ever appends at the end of the current group, moves the
current group (whole) to the end of `done`, or stops. -/
lemma groupGo_head (tmin tmax : ℚ) (stride : ℤ) :
    ∀ (samples : List (ℚ × ℚ × ℤ)) (prev : ℤ) (done : List (List (ℚ × ℚ)))
      (cur : List (ℚ × ℚ)) (a : ℚ × ℚ),
      (done ++ [cur]).head?.bind List.head? = some a →
      (groupGo tmin tmax stride prev samples done cur).head?.bind List.head?
        = some a := by
  intro samples
  induction samples with
  | nil => intro prev done cur a h; exact h
  | cons s rest ih =>
    intro prev done cur a h
    obtain ⟨t, p, ix⟩ := s
    show (if tmax < t then done ++ [cur] else _).head?.bind List.head? = some a
    by_cases h1 : tmax < t
    · rw [if_pos h1]; exact h
    · rw [if_neg h1]
      by_cases h2 : t < tmin
      · rw [if_pos h2]; exact ih ix done cur a h
      · rw [if_neg h2]
        by_cases h3 : prev < ix - stride
        · rw [if_pos h3]
          apply ih ix (done ++ [cur]) [(t, p)] a
          cases done with
          | nil => simpa using h
          | cons d ds => simpa using h
        · rw [if_neg h3]
          apply ih ix done (cur ++ [(t, p)]) a
          cases done with
          | nil =>
            simp only [List.nil_append, List.head?_cons, Option.bind_some] at h ⊢
            cases cur with
            | nil => simp at h
            | cons c cs => simpa using h
          | cons d ds => simpa using h

/-! ### Claims -/

/-- C1: for every peak whose deconvolved hit energies have a nonzero sum,
`distribute_energy` rescales them so that the sum of the output hit energies
equals exactly the sum of the original sensor energies of the configured
energy type for that peak, regardless of how many bins survived the cut. -/
theorem distribute_energy_conserves (dfE : List ℚ) (cdst : List CdstRow)
    (energy_type : HitEnergy) (h : dfE.sum ≠ 0) :
    (distribute_energy dfE cdst energy_type).sum = (cdst.map energy_type.col).sum := by
  unfold distribute_energy
  have hfun : (fun e => e / dfE.sum * (cdst.map energy_type.col).sum)
      = (fun e : ℚ => e * ((cdst.map energy_type.col).sum / dfE.sum)) := by
    funext e; ring
  rw [hfun, sum_map_mul_const, mul_comm, div_mul_cancel₀ _ h]

/-- Witness for C1 at a concrete peak: two deconvolved hits `[1, 3]` and two
sensor rows with uncorrected energies `2` and `5`. -/
theorem distribute_energy_conserves_witness :
    (distribute_energy [1, 3] [⟨2, 0⟩, ⟨5, 0⟩] HitEnergy.E).sum
      = (([⟨2, 0⟩, ⟨5, 0⟩] : List CdstRow).map HitEnergy.E.col).sum :=
  distribute_energy_conserves [1, 3] [⟨2, 0⟩, ⟨5, 0⟩] HitEnergy.E
    (by norm_num [List.sum_cons, List.sum_nil])

/-- C2: `create_deconvolution_df` in `abs` mode retains exactly the bins whose
deconvolved value is strictly greater than `e_cut`, and in `rel` mode exactly
the bins whose value divided by the image maximum is strictly greater than
`e_cut`; for image `[0.1, 0.5, 1.0]`, `abs` mode with `e_cut = 0.5` retains
only the bin with value `1.0`, and `rel` mode with `e_cut = 0.4` retains the
bins with values `0.5` and `1.0`. -/
theorem create_deconvolution_df_cut :
    (∀ (deconv_e posX posY : List ℚ) (e_cut : ℚ) (df : DeconvDF),
        create_deconvolution_df deconv_e posX posY CutType.abs e_cut = some df →
        df.E = deconv_e.filter (fun v => decide (e_cut < v)))
    ∧ (∀ (deconv_e posX posY : List ℚ) (e_cut m : ℚ) (df : DeconvDF),
        deconv_e.max? = some m →
        create_deconvolution_df deconv_e posX posY CutType.rel e_cut = some df →
        df.E = deconv_e.filter (fun v => decide (e_cut < v / m)))
    ∧ (create_deconvolution_df [1/10, 1/2, 1] [0, 0, 0] [0, 0, 0]
        CutType.abs (1/2)).map DeconvDF.E = some [1]
    ∧ (create_deconvolution_df [1/10, 1/2, 1] [0, 0, 0] [0, 0, 0]
        CutType.rel (2/5)).map DeconvDF.E = some [1/2, 1] := by
  refine ⟨?_, ?_, ?_, ?_⟩
  · intro l pX pY ec df h
    simp only [create_deconvolution_df] at h
    injection h with h
    subst h
    exact (np_select_map _ l).symm ▸ rfl
  · intro l pX pY ec m df hm h
    simp only [create_deconvolution_df, hm] at h
    injection h with h
    subst h
    exact (np_select_map _ l).symm ▸ rfl
  · norm_num [create_deconvolution_df, np_select, List.filterMap_cons,
      List.filterMap_nil]
  · norm_num [create_deconvolution_df, np_select, List.max?,
      List.filterMap_cons, List.filterMap_nil]

/-- Witness for C2 at the spec's example image: in `abs` mode with
`e_cut = 1/2` the retained energies are the strict-threshold filter of the
image. -/
theorem create_deconvolution_df_cut_witness :
    (⟨[1], [0], [0]⟩ : DeconvDF).E
      = [(1:ℚ)/10, 1/2, 1].filter (fun v => decide ((1:ℚ)/2 < v)) :=
  create_deconvolution_df_cut.1 [1/10, 1/2, 1] [0, 0, 0] [0, 0, 0] (1/2)
    ⟨[1], [0], [0]⟩ (by
      norm_num [create_deconvolution_df, np_select, DeconvDF.mk.injEq,
        List.filterMap_cons, List.filterMap_nil])

/-- C3 counterexample: on fully empty input (`find_S12`'s default window and
length bounds, `stride = 4`), `find_S12` fails — it does not return the empty
mapping — and the failure is in the grouping phase: the unconditional
`S12[0].append([T[0], P[0]])` reads `T[0]` of an empty array. -/
theorem find_S12_empty_counterexample :
    find_S12 [] [] 0 1000000 8 1000000 4 false 40 = none ∧
    find_S12 [] [] 0 1000000 8 1000000 4 false 40 ≠ some [] ∧
    find_S12_groups [] [] 0 1000000 4 = none := by
  exact ⟨rfl, by decide, rfl⟩

/-- C3 amended: for empty input arrays, `find_S12` fails (an `IndexError`
from the unconditional access to the first sample, modelled as `none`), for
every choice of the remaining parameters, instead of returning an empty
mapping. -/
theorem find_S12_empty_fails (tmin tmax : ℚ) (lmin lmax : ℕ) (stride : ℤ)
    (rebin : Bool) (rebin_stride : ℕ) :
    find_S12 [] [] tmin tmax lmin lmax stride rebin rebin_stride = none := rfl

/-- C4: `find_S12` keeps a grouped peak exactly when its sample count `ls`
satisfies `lmin ≤ ls < lmax`: every returned peak's length is in
`[lmin, lmax)`, every candidate group with length in `[lmin, lmax)` is
returned, and concretely a 2-sample peak is retained at `lmin = 2`, dropped
at `lmin = 3` (`lmin - 1 = 2` samples), and dropped at `lmax = 2`. -/
theorem find_S12_length_filter :
    (∀ (wfzs : List ℚ) (index : List ℤ) (tmin tmax : ℚ) (lmin lmax : ℕ)
        (stride : ℤ) (rs : ℕ) (groups : List (List (ℚ × ℚ)))
        (L : List (List ℚ × List ℚ)),
        find_S12_groups wfzs index tmin tmax stride = some groups →
        find_S12 wfzs index tmin tmax lmin lmax stride false rs = some L →
        (∀ p ∈ L, lmin ≤ p.1.length ∧ p.1.length < lmax) ∧
        (∀ g ∈ groups, lmin ≤ g.length → g.length < lmax →
          (g.map Prod.fst, g.map Prod.snd) ∈ L))
    ∧ find_S12 [1, 1] [0, 1] 0 1000000 2 10 1 false 40
        = some [([0, 25], [1, 1])]
    ∧ find_S12 [1, 1, 1] [0, 1, 2] 0 1000000 4 10 1 false 40 = some []
    ∧ find_S12 [1, 1] [0, 1] 0 1000000 1 2 1 false 40 = some [] := by
  refine ⟨?_, ?_, ?_, ?_⟩
  · intro wfzs index tmin tmax lmin lmax stride rs groups L hg hL
    rw [find_S12, hg] at hL
    simp only [if_neg Bool.false_ne_true, ite_false] at hL
    injection hL with hL
    subst hL
    constructor
    · intro p hp
      obtain ⟨g, hgmem, rfl⟩ := List.mem_map.mp hp
      have := (List.mem_filter.mp hgmem).2
      simp only [decide_eq_true_eq] at this
      simpa using this
    · intro g hgmem h1 h2
      refine List.mem_map.mpr ⟨g, List.mem_filter.mpr ⟨hgmem, ?_⟩, rfl⟩
      simpa using ⟨h1, h2⟩
  · norm_num [find_S12, find_S12_groups, groupGo, time_from_index]
  · norm_num [find_S12, find_S12_groups, groupGo, time_from_index]
  · norm_num [find_S12, find_S12_groups, groupGo, time_from_index]

/-- Witness for C4: a single contiguous 2-sample candidate group with
`lmin = 2 ≤ 2 < 10 = lmax` — both directions of the filter characterization
hold at it. -/
theorem find_S12_length_filter_witness :
    (∀ p ∈ [([(0:ℚ), 25], [(1:ℚ), 1])], 2 ≤ p.1.length ∧ p.1.length < 10) ∧
    (∀ g ∈ [[((0:ℚ), (1:ℚ)), (25, 1)]], 2 ≤ g.length → g.length < 10 →
      (g.map Prod.fst, g.map Prod.snd) ∈ [([(0:ℚ), 25], [(1:ℚ), 1])]) :=
  find_S12_length_filter.1 [1, 1] [0, 1] 0 1000000 2 10 1 40
    [[(0, 1), (25, 1)]] [([0, 25], [1, 1])]
    (by norm_num [find_S12_groups, groupGo, time_from_index])
    (by norm_num [find_S12, find_S12_groups, groupGo, time_from_index])

/-- C5: for equal-length time and energy arrays and positive stride,
`rebin_waveform` succeeds and its energy chunks sum exactly to the sum of the
input energies, including when a final partial chunk is present. -/
theorem rebin_waveform_conserves_energy (t e : List ℚ) (stride : ℕ)
    (hlen : t.length = e.length) (hs : 0 < stride) :
    ∃ TE, rebin_waveform t e stride = some TE ∧ TE.2.sum = e.sum := by
  refine ⟨rebinAux stride t.length t e, ?_, ?_⟩
  · simp [rebin_waveform, hlen, hs]
  · exact rebinAux_sum stride hs t.length t e le_rfl hlen

/-- Witness for C5: three samples rebinned with stride 2 (one full chunk and
one partial chunk); the rebinned energies sum to `1 + 2 + 3`. -/
theorem rebin_waveform_conserves_energy_witness :
    ∃ TE, rebin_waveform [0, 25, 50] [1, 2, 3] 2 = some TE
      ∧ TE.2.sum = ([1, 2, 3] : List ℚ).sum :=
  rebin_waveform_conserves_energy [0, 25, 50] [1, 2, 3] 2 (by decide) (by decide)

/-- C10: for every non-empty input, `find_S12` assigns the first sample to
peak 0 unconditionally, before any time-window check: the first element of
the first group of the candidate grouping is `[T[0], P[0]]` for *every*
`tmin`/`tmax`, including when `T[0]` lies outside `[tmin, tmax]`, because the
`tmin` skip and the `tmax` scan termination apply only from the second
sample onward. -/
theorem find_S12_first_sample_unconditional (p0 : ℚ) (prest : List ℚ)
    (i0 : ℤ) (irest : List ℤ) (tmin tmax : ℚ) (stride : ℤ)
    (hlen : prest.length = irest.length) :
    ∃ groups,
      find_S12_groups (p0 :: prest) (i0 :: irest) tmin tmax stride
        = some groups ∧
      groups.head?.bind List.head? = some (25 * (i0 : ℚ), p0) := by
  refine ⟨groupGo tmin tmax stride i0
      ((prest.zip irest).map (fun s => (25 * (s.2 : ℚ), s.1, s.2))) []
      [(25 * (i0 : ℚ), p0)], ?_, ?_⟩
  · rw [find_S12_groups, if_pos (by simpa using hlen)]
    rfl
  · exact groupGo_head tmin tmax stride _ i0 [] [(25 * (i0 : ℚ), p0)]
      (25 * (i0 : ℚ), p0) rfl

/-- Witness for C10: first sample at time `0`, which lies below
`tmin = 100`, is still the first member of peak 0 of the candidate
grouping. -/
theorem find_S12_first_sample_unconditional_witness :
    ∃ groups,
      find_S12_groups [7, 8] [0, 10] 100 1000000 4 = some groups ∧
      groups.head?.bind List.head? = some (25 * ((0 : ℤ) : ℚ), 7) :=
  find_S12_first_sample_unconditional 7 [8] 0 [10] 100 1000000 4 rfl

/-- Gap invariant of the grouping loop when no sample is skipped by the
`tmin` cut: inside every group, consecutive members' times (hence their
original indices, since `T = 25 * index`) differ by at most `25 * stride`.
The loop compares each sample's index with the index of the immediately
preceding *input* sample, so the invariant needs every remaining sample to
be at or after `tmin` (otherwise a skipped sample can stand between two
retained ones). -/
lemma groupGo_chain (tmin tmax : ℚ) (stride : ℤ) :
    ∀ (samples : List (ℚ × ℚ × ℤ)) (prev : ℤ) (done : List (List (ℚ × ℚ)))
      (cur : List (ℚ × ℚ)),
      (∀ s ∈ samples, tmin ≤ s.1) →
      (∀ s ∈ samples, s.1 = 25 * (s.2.2 : ℚ)) →
      (∀ g ∈ done, g.Chain' (fun a b => b.1 - a.1 ≤ 25 * (stride : ℚ))) →
      cur.Chain' (fun a b => b.1 - a.1 ≤ 25 * (stride : ℚ)) →
      (∃ lc, cur.getLast? = some lc ∧ lc.1 = 25 * (prev : ℚ)) →
      ∀ g ∈ groupGo tmin tmax stride prev samples done cur,
        g.Chain' (fun a b => b.1 - a.1 ≤ 25 * (stride : ℚ)) := by
  intro samples
  induction samples with
  | nil =>
    intro prev done cur _ _ hdone hcur _ g hgmem
    rcases List.mem_append.mp hgmem with hd | hc
    · exact hdone g hd
    · rw [List.mem_singleton.mp hc]; exact hcur
  | cons s rest ih =>
    intro prev done cur hmin htime hdone hcur hlast g hgmem
    obtain ⟨t, p, ix⟩ := s
    have ht : tmin ≤ t := hmin (t, p, ix) (List.mem_cons_self _ _)
    have htix : t = 25 * (ix : ℚ) := htime (t, p, ix) (List.mem_cons_self _ _)
    rw [groupGo, if_neg (not_lt.mpr ht)] at hgmem
    by_cases h1 : tmax < t
    · rw [if_pos h1] at hgmem
      rcases List.mem_append.mp hgmem with hd | hc
      · exact hdone g hd
      · rw [List.mem_singleton.mp hc]; exact hcur
    · rw [if_neg h1] at hgmem
      by_cases h3 : prev < ix - stride
      · rw [if_pos h3] at hgmem
        refine ih ix (done ++ [cur]) [(t, p)]
          (fun s hs => hmin s (List.mem_cons_of_mem _ hs))
          (fun s hs => htime s (List.mem_cons_of_mem _ hs))
          ?_ (List.chain'_singleton _) ⟨(t, p), rfl, htix⟩ g hgmem
        intro g' hg'
        rcases List.mem_append.mp hg' with hd | hc
        · exact hdone g' hd
        · rw [List.mem_singleton.mp hc]; exact hcur
      · rw [if_neg h3] at hgmem
        obtain ⟨lc, hlc, hlct⟩ := hlast
        have hstep : t - lc.1 ≤ 25 * (stride : ℚ) := by
          have hz : ix - prev ≤ stride := by
            have := not_lt.mp h3
            omega
          have hle : (ix : ℚ) - (prev : ℚ) ≤ (stride : ℚ) := by
            exact_mod_cast hz
          rw [htix, hlct]
          nlinarith [hle]
        refine ih ix done (cur ++ [(t, p)])
          (fun s hs => hmin s (List.mem_cons_of_mem _ hs))
          (fun s hs => htime s (List.mem_cons_of_mem _ hs))
          hdone ?_ ⟨(t, p), List.getLast?_concat cur, htix⟩ g hgmem
        refine List.chain'_append.mpr ⟨hcur, List.chain'_singleton _, ?_⟩
        intro x hx y hy
        rw [hlc, Option.mem_def, Option.some.injEq] at hx
        simp only [List.head?_cons, Option.mem_def, Option.some.injEq] at hy
        rw [← hx, ← hy]
        exact hstep

/-- The groups produced by `find_S12`'s grouping phase satisfy the
within-`stride` gap invariant whenever no sample time lies below `tmin`. -/
lemma find_S12_groups_chain (wfzs : List ℚ) (index : List ℤ)
    (tmin tmax : ℚ) (stride : ℤ) (groups : List (List (ℚ × ℚ)))
    (htmin : ∀ i ∈ index, tmin ≤ 25 * (i : ℚ))
    (hg : find_S12_groups wfzs index tmin tmax stride = some groups) :
    ∀ g ∈ groups, g.Chain' (fun a b => b.1 - a.1 ≤ 25 * (stride : ℚ)) := by
  cases wfzs with
  | nil => simp [find_S12_groups] at hg
  | cons p0 prest =>
    cases index with
    | nil => simp [find_S12_groups] at hg
    | cons i0 irest =>
      rw [find_S12_groups] at hg
      by_cases hlen : (p0 :: prest).length = (i0 :: irest).length
      · rw [if_pos hlen] at hg
        injection hg with hg
        subst hg
        apply groupGo_chain tmin tmax stride _ i0 [] [(25 * (i0 : ℚ), p0)]
        · intro s hs
          obtain ⟨z, hz, rfl⟩ := List.mem_map.mp hs
          exact htmin z.2 (List.mem_cons_of_mem _ (List.of_mem_zip hz).2)
        · intro s hs
          obtain ⟨z, _, rfl⟩ := List.mem_map.mp hs
          rfl
        · intro g' hg'; cases hg'
        · exact List.chain'_singleton _
        · exact ⟨(25 * (i0 : ℚ), p0), rfl, rfl⟩
      · rw [if_neg hlen] at hg; cases hg

/-- C7 counterexample: with `stride = 4` and `tmin = 150`, input indices
`[0, 4, 8]` (times `[0, 100, 200]`) produce one returned peak containing the
samples of indices `0` and `8` as consecutive members — the middle sample is
skipped by the `tmin` cut but still feeds the gap check — and their index
gap `8 - 0` exceeds `stride = 4`. -/
theorem find_S12_peak_gap_counterexample :
    find_S12 [1, 2, 3] [0, 4, 8] 150 1000000 1 1000000 4 false 40
      = some [([0, 200], [1, 3])] ∧
    (0 : ℚ) = 25 * ((0 : ℤ) : ℚ) ∧ (200 : ℚ) = 25 * ((8 : ℤ) : ℚ) ∧
    ¬((8 : ℤ) - 0 ≤ 4) := by
  refine ⟨?_, by norm_num, by norm_num, by decide⟩
  norm_num [find_S12, find_S12_groups, groupGo, time_from_index]

/-- C7 amended: every peak returned by `find_S12` satisfies the invariant —
consecutive member times (equivalently, original indices, via
`T = 25 * index`) never differ by more than `25 * stride` — *provided no
sample time lies below `tmin`*; with `tmin` skipping, a returned peak can
contain consecutive members whose index gap exceeds `stride`. -/
theorem find_S12_peak_gap_bounded (wfzs : List ℚ) (index : List ℤ)
    (tmin tmax : ℚ) (lmin lmax : ℕ) (stride : ℤ) (rs : ℕ)
    (L : List (List ℚ × List ℚ))
    (htmin : ∀ i ∈ index, tmin ≤ 25 * (i : ℚ))
    (hL : find_S12 wfzs index tmin tmax lmin lmax stride false rs = some L) :
    ∀ p ∈ L, p.1.Chain' (fun a b => b - a ≤ 25 * (stride : ℚ)) := by
  cases hg : find_S12_groups wfzs index tmin tmax stride with
  | none => rw [find_S12, hg] at hL; cases hL
  | some groups =>
    rw [find_S12, hg] at hL
    simp only [if_neg Bool.false_ne_true, ite_false] at hL
    injection hL with hL
    subst hL
    intro p hp
    obtain ⟨g, hgmem, rfl⟩ := List.mem_map.mp hp
    have hchain := find_S12_groups_chain wfzs index tmin tmax stride groups
      htmin hg g (List.mem_filter.mp hgmem).1
    exact (List.chain'_map Prod.fst).mpr hchain

/-- Witness for C7 amended: `tmin = 0` skips nothing; the single returned
peak's member times `[0, 100]` differ by `100 ≤ 25 * 4`. -/
theorem find_S12_peak_gap_bounded_witness :
    List.Chain' (fun a b => b - a ≤ 25 * ((4 : ℤ) : ℚ)) [(0 : ℚ), 100] :=
  find_S12_peak_gap_bounded [1, 2] [0, 4] 0 1000000 1 1000000 4 40
    [([0, 100], [1, 2])]
    (by intro i hi; fin_cases hi <;> norm_num)
    (by norm_num [find_S12, find_S12_groups, groupGo, time_from_index])
    ([0, 100], [1, 2]) (List.mem_singleton.mpr rfl)

/-- With `stride = 0` the new-peak condition `index[i] - 0 > index[i-1]`
fires at every strictly increasing index step, so as long as every sample
lies inside the time window, each remaining sample ends up in its own
singleton group. -/
lemma groupGo_stride_zero (tmin tmax : ℚ) :
    ∀ (samples : List (ℚ × ℚ × ℤ)) (prev : ℤ) (done : List (List (ℚ × ℚ)))
      (cur : List (ℚ × ℚ)),
      (∀ s ∈ samples, tmin ≤ s.1 ∧ s.1 ≤ tmax) →
      (prev :: samples.map (fun s => s.2.2)).Chain' (· < ·) →
      groupGo tmin tmax 0 prev samples done cur
        = done ++ [cur] ++ samples.map (fun s => [(s.1, s.2.1)]) := by
  intro samples
  induction samples with
  | nil => intro prev done cur _ _; simp [groupGo]
  | cons s rest ih =>
    intro prev done cur hwin hchain
    obtain ⟨t, p, ix⟩ := s
    have hw := hwin (t, p, ix) (List.mem_cons_self _ _)
    have hprev : prev < ix := (List.chain'_cons.mp hchain).1
    rw [groupGo, if_neg (not_lt.mpr hw.2), if_neg (not_lt.mpr hw.1),
      if_pos (by omega : prev < ix - 0)]
    rw [ih ix (done ++ [cur]) [(t, p)]
      (fun s hs => hwin s (List.mem_cons_of_mem _ hs))
      (List.chain'_cons.mp hchain).2]
    simp [List.append_assoc]

/-- C6 counterexample: with `stride = 0` and already contiguous indices
`[0, 1]` (all samples well inside the time window), `find_S12` returns *two*
singleton peaks, not one merged peak: the new-peak test
`index[i] - stride > index[i-1]` is `1 - 0 > 0`, true. -/
theorem find_S12_stride_zero_counterexample :
    find_S12 [1, 2] [0, 1] 0 1000000 1 1000000 0 false 40
      = some [([0], [1]), ([25], [2])] ∧
    (find_S12 [1, 2] [0, 1] 0 1000000 1 1000000 0 false 40).map List.length
      ≠ some 1 := by
  constructor
  · norm_num [find_S12, find_S12_groups, groupGo, time_from_index]
  · norm_num [find_S12, find_S12_groups, groupGo, time_from_index]

/-- C6 amended: with `stride = 0`, `find_S12`'s grouping places every sample
into its own singleton sub-peak whenever the sample indices are strictly
increasing — *including* when consecutive indices differ by exactly 1
(contiguous samples are split, not kept together); samples could share a
sub-peak only if an index failed to increase. -/
theorem find_S12_stride_zero_singletons (wfzs : List ℚ) (index : List ℤ)
    (tmin tmax : ℚ)
    (hlen : wfzs.length = index.length)
    (hmono : index.Chain' (· < ·))
    (hwin : ∀ i ∈ index, tmin ≤ 25 * (i : ℚ) ∧ 25 * (i : ℚ) ≤ tmax)
    (hne : wfzs ≠ []) :
    find_S12_groups wfzs index tmin tmax 0
      = some ((wfzs.zip index).map (fun s => [(25 * (s.2 : ℚ), s.1)])) := by
  cases wfzs with
  | nil => exact absurd rfl hne
  | cons p0 prest =>
    cases index with
    | nil => simp at hlen
    | cons i0 irest =>
      rw [find_S12_groups, if_pos hlen]
      have hlen' : prest.length = irest.length := by simpa using hlen
      have hsnd : ((prest.zip irest).map
          (fun s => (25 * (s.2 : ℚ), s.1, s.2))).map (fun s => s.2.2)
          = irest := by
        rw [List.map_map]
        have hcomp : ((fun s : ℚ × ℚ × ℤ => s.2.2) ∘
            (fun s : ℚ × ℤ => (25 * (s.2 : ℚ), s.1, s.2))) = Prod.snd := rfl
        rw [hcomp]
        exact List.map_snd_zip prest irest (le_of_eq hlen'.symm)
      show some (groupGo tmin tmax 0 i0
          ((prest.zip irest).map (fun s => (25 * (s.2 : ℚ), s.1, s.2)))
          [] [(25 * (i0 : ℚ), p0)]) = _
      rw [groupGo_stride_zero tmin tmax
          ((prest.zip irest).map (fun s => (25 * (s.2 : ℚ), s.1, s.2)))
          i0 [] [(25 * (i0 : ℚ), p0)]
        (by
          intro s hs
          obtain ⟨z, hz, rfl⟩ := List.mem_map.mp hs
          exact hwin z.2 (List.mem_cons_of_mem _ (List.of_mem_zip hz).2))
        (by rw [hsnd]; exact hmono)]
      simp only [List.nil_append, List.zip_cons_cons, List.map_cons,
        List.map_map, Option.some.injEq, List.singleton_append]
      rfl

/-- Witness for C6 amended: contiguous indices `[0, 1]` with `stride = 0`
give two singleton groups. -/
theorem find_S12_stride_zero_singletons_witness :
    find_S12_groups [1, 2] [0, 1] 0 1000000 0
      = some ((([1, 2] : List ℚ).zip ([0, 1] : List ℤ)).map
          (fun s => [(25 * (s.2 : ℚ), s.1)])) :=
  find_S12_stride_zero_singletons [1, 2] [0, 1] 0 1000000 rfl
    (List.chain'_cons.mpr ⟨by norm_num, List.chain'_singleton _⟩)
    (by intro i hi; fin_cases hi <;> norm_num)
    (by simp)

/-- The fold inside `find_nearest` returns an element of the scanned list (or
the initial accumulator) minimizing the distance to `v`. -/
lemma find_nearest_foldl_spec (v : ℚ) :
    ∀ (grid : List ℚ) (acc : Option ℚ) (g : ℚ),
      grid.foldl (fun acc g' =>
        match acc with
        | none => some g'
        | some b => if |g' - v| < |b - v| then some g' else acc) acc = some g →
      (g ∈ grid ∨ acc = some g) ∧
      (∀ x ∈ grid, |g - v| ≤ |x - v|) ∧
      (∀ b, acc = some b → |g - v| ≤ |b - v|) := by
  intro grid
  induction grid with
  | nil =>
    intro acc g h
    rw [List.foldl_nil] at h
    refine ⟨Or.inr h, fun x hx => absurd hx (List.not_mem_nil x), ?_⟩
    intro b hb
    rw [h] at hb
    injection hb with hb
    rw [hb]
  | cons x rest ih =>
    intro acc g h
    rw [List.foldl_cons] at h
    cases acc with
    | none =>
      dsimp only at h
      obtain ⟨hmem, hminrest, hacc⟩ := ih (some x) g h
      refine ⟨?_, ?_, by intro b hb; cases hb⟩
      · rcases hmem with hr | hx
        · exact Or.inl (List.mem_cons_of_mem x hr)
        · injection hx with hx
          exact Or.inl (hx ▸ List.mem_cons_self x rest)
      · intro y hy
        rcases List.mem_cons.mp hy with rfl | hyr
        · exact hacc y rfl
        · exact hminrest y hyr
    | some b =>
      dsimp only at h
      by_cases hlt : |x - v| < |b - v|
      · rw [if_pos hlt] at h
        obtain ⟨hmem, hminrest, hacc⟩ := ih (some x) g h
        refine ⟨?_, ?_, ?_⟩
        · rcases hmem with hr | hx
          · exact Or.inl (List.mem_cons_of_mem x hr)
          · injection hx with hx
            exact Or.inl (hx ▸ List.mem_cons_self x rest)
        · intro y hy
          rcases List.mem_cons.mp hy with rfl | hyr
          · exact hacc y rfl
          · exact hminrest y hyr
        · intro b' hb'
          injection hb' with hb'
          subst hb'
          exact le_of_lt (lt_of_le_of_lt (hacc x rfl) hlt)
      · rw [if_neg hlt] at h
        obtain ⟨hmem, hminrest, hacc⟩ := ih (some b) g h
        refine ⟨?_, ?_, ?_⟩
        · rcases hmem with hr | hx
          · exact Or.inl (List.mem_cons_of_mem x hr)
          · exact Or.inr hx
        · intro y hy
          rcases List.mem_cons.mp hy with rfl | hyr
          · exact le_trans (hacc b rfl) (not_lt.mp hlt)
          · exact hminrest y hyr
        · intro b' hb'
          injection hb' with hb'
          subst hb'
          exact hacc b rfl

/-- C8: `deconvolve_hits` performs the PSF lookup with the longitudinal
coordinate equal to the slice's `z` when `deconv_mode` is `joint` — the
selected grid value is then a nearest grid point to `z` — and equal to `0`
(the EL-only kernel) when `deconv_mode` is `separate` — the selected grid
value is then a nearest grid point to `0`, independent of the slice's `z`. -/
theorem deconvolve_hits_psf_z_spec :
    (∀ (psf_zs : List ℚ) (z g : ℚ),
        deconvolve_hits_psf_z psf_zs DeconvolutionMode.joint z = some g →
        g ∈ psf_zs ∧ ∀ x ∈ psf_zs, |g - z| ≤ |x - z|)
    ∧ (∀ (psf_zs : List ℚ) (z g : ℚ),
        deconvolve_hits_psf_z psf_zs DeconvolutionMode.separate z = some g →
        g ∈ psf_zs ∧ ∀ x ∈ psf_zs, |g - 0| ≤ |x - 0|)
    ∧ (∀ (psf_zs : List ℚ) (z : ℚ),
        deconvolve_hits_psf_z psf_zs DeconvolutionMode.separate z
          = deconvolve_hits_psf_z psf_zs DeconvolutionMode.joint 0) := by
  refine ⟨?_, ?_, fun _ _ => rfl⟩
  · intro psf_zs z g h
    obtain ⟨hmem, hmin, _⟩ := find_nearest_foldl_spec z psf_zs none g h
    exact ⟨hmem.resolve_right (by simp), hmin⟩
  · intro psf_zs z g h
    obtain ⟨hmem, hmin, _⟩ := find_nearest_foldl_spec 0 psf_zs none g h
    exact ⟨hmem.resolve_right (by simp), hmin⟩

/-- Witness for C8: grid `[0, 10, 20]`, slice `z = 12`: joint mode selects
`10`, the grid point nearest `12`. -/
theorem deconvolve_hits_psf_z_spec_witness :
    (10 : ℚ) ∈ [(0 : ℚ), 10, 20] ∧
    ∀ x ∈ [(0 : ℚ), 10, 20], |(10 : ℚ) - 12| ≤ |x - 12| :=
  deconvolve_hits_psf_z_spec.1 [0, 10, 20] 12 10
    (by norm_num [deconvolve_hits_psf_z, deconvolve_hits_zz, find_nearest,
      abs_sub_lt_iff])

/-- C9: the tracks of `create_extract_track_blob_info` are sorted by
descending summed voxel energy — the output list is non-increasing in
`track_energy`, is a permutation of the input, and ties between equal-energy
tracks keep their input (discovery) order. -/
theorem sort_tracks_spec (ts : List Track) :
    (sort_tracks ts).Pairwise (fun a b => track_energy b ≤ track_energy a)
    ∧ (sort_tracks ts).Perm ts
    ∧ (∀ x y : Track, List.Sublist [x, y] ts →
        track_energy x = track_energy y →
        List.Sublist [x, y] (sort_tracks ts)) := by
  have trans : ∀ a b c : Track,
      decide (track_energy b ≤ track_energy a) = true →
      decide (track_energy c ≤ track_energy b) = true →
      decide (track_energy c ≤ track_energy a) = true := by
    intro a b c hab hbc
    exact decide_eq_true_eq.mpr
      (le_trans (decide_eq_true_eq.mp hbc) (decide_eq_true_eq.mp hab))
  have total : ∀ a b : Track,
      (decide (track_energy b ≤ track_energy a)
        || decide (track_energy a ≤ track_energy b)) = true := by
    intro a b
    rcases le_total (track_energy b) (track_energy a) with h | h <;> simp [h]
  refine ⟨?_, List.mergeSort_perm ts _, ?_⟩
  · exact (List.sorted_mergeSort trans total ts).imp
      (fun h => decide_eq_true_eq.mp h)
  · intro x y hsub heq
    exact List.pair_sublist_mergeSort trans total
      (decide_eq_true_eq.mpr (le_of_eq heq.symm)) hsub

/-- Witness for C9: two tracks with equal summed energy (`3` each) keep
their discovery order after sorting. -/
theorem sort_tracks_spec_witness :
    List.Sublist [Track.mk [Voxel.mk 3], Track.mk [Voxel.mk 1, Voxel.mk 2]]
      (sort_tracks [Track.mk [Voxel.mk 3], Track.mk [Voxel.mk 1, Voxel.mk 2]]) :=
  (sort_tracks_spec [Track.mk [Voxel.mk 3], Track.mk [Voxel.mk 1, Voxel.mk 2]]).2.2
    (Track.mk [Voxel.mk 3]) (Track.mk [Voxel.mk 1, Voxel.mk 2])
    (List.Sublist.refl _)
    (by norm_num [track_energy])

end IC
